import Mathlib

set_option maxHeartbeats 1000000
set_option linter.unusedVariables false

/-!
Verification of the RedSVD header (include/RedSVD/RedSVD.h): the Gaussian
sampler, the in-place Gram-Schmidt orthonormalizer, the randomized SVD
engine (RedSVD) and the randomized symmetric eigendecomposition engine
(RedSymEigen), shallowly embedded over the real numbers.

Modelling conventions:
- Eigen dynamic dense matrices become `Mat`: a pair of dimensions together
  with a total entry function (entries outside the stated bounds are junk,
  conventionally zero where a matrix is freshly constructed).
- The process-wide uniform random source std::rand is an explicit stream
  `g : Nat -> Nat` of raw draws together with a counter, threaded through
  every sampling call in program order; RAND_MAX is the parameter `R`.
- The external exact solvers (Eigen's BDCSVD on the small core matrix C,
  Eigen's SelfAdjointEigenSolver on the small core matrix B) are abstract
  function parameters `solver` / `eigSolver`.
- Scalar arithmetic is exact real arithmetic.
-/

/-- A dynamically sized dense matrix of real scalars (Eigen `DenseMatrix`,
i.e. `Eigen::Matrix<Scalar, Dynamic, Dynamic>`).  The entry function is
total; entries outside `rows x cols` are meaningless junk. -/
structure Mat where
  rows : ℕ
  cols : ℕ
  entry : ℕ → ℕ → ℝ

/-- A dynamically sized column vector of real scalars (Eigen `ScalarVector`,
i.e. `Eigen::Matrix<Scalar, Dynamic, 1>`). -/
structure Vec where
  len : ℕ
  entry : ℕ → ℝ

/-- Matrix transpose (`A.transpose()`). -/
def Mat.transpose (A : Mat) : Mat :=
  ⟨A.cols, A.rows, fun i j => A.entry j i⟩

/-- Matrix product (`A * B`): entry `(i,j)` is the dot product of row `i`
of `A` with column `j` of `B`, summed over the inner dimension `A.cols`. -/
noncomputable def Mat.mul (A B : Mat) : Mat :=
  ⟨A.rows, B.cols, fun i j => ∑ k ∈ Finset.range A.cols, A.entry i k * B.entry k j⟩

/-- Overwrite a single entry of a matrix (an assignment through `mat(i,j)`). -/
def Mat.write (M : Mat) (i j : ℕ) (v : ℝ) : Mat :=
  ⟨M.rows, M.cols, fun a b => if a = i ∧ b = j then v else M.entry a b⟩

/-- The uniform value the sampler derives from one raw draw `k` of the
uniform source: `(rand() + 1) / (RAND_MAX + 2)`, with `R` standing for
RAND_MAX. -/
noncomputable def uniform01 (R k : ℕ) : ℝ :=
  ((k : ℝ) + 1) / ((R : ℝ) + 2)

/-- The scalar pair overload of `sample_gaussian`: a single Box-Muller
transform.  It consumes two raw draws `k1`, `k2` of the uniform source (in
that order), forms `v1`, `v2`, and produces the two normal samples
`(x, y) = (len * cos(2 pi v2), len * sin(2 pi v2))` with
`len = sqrt(-2 * log v1)`.  The C++ function assigns `x` first and `y`
second through its two reference parameters. -/
noncomputable def sample_gaussian_pair (R k1 k2 : ℕ) : ℝ × ℝ :=
  let v1 := uniform01 R k1
  let v2 := uniform01 R k2
  let len := Real.sqrt ((-2 : ℝ) * Real.log v1)
  (len * Real.cos (2 * Real.pi * v2), len * Real.sin (2 * Real.pi * v2))

/-- Inner loop of the matrix overload of `sample_gaussian`: for each listed
pair index `t` (the loop variable `j = 2*t`, running while `j + 1 < cols`),
one Box-Muller call writes `x` to `(i, 2t)` and `y` to `(i, 2t+1)`,
consuming two raw draws and advancing the rand counter by 2. -/
noncomputable def fill_row_pairs (R : ℕ) (g : ℕ → ℕ) (i : ℕ) :
    Mat → ℕ → List ℕ → Mat × ℕ
  | M, c, [] => (M, c)
  | M, c, t :: ts =>
      let xy := sample_gaussian_pair R (g c) (g (c + 1))
      fill_row_pairs R g i ((M.write i (2 * t) xy.1).write i (2 * t + 1) xy.2)
        (c + 2) ts

/-- One row of the matrix overload of `sample_gaussian`: the paired writes,
then, when the number of columns is odd, one extra Box-Muller call whose two
reference arguments alias the final entry `(i, cols - 1)`; the assignment of
`x` is followed by the assignment of `y` to the same entry. -/
noncomputable def fill_row (R : ℕ) (g : ℕ → ℕ) (i : ℕ) (M : Mat) (c : ℕ) :
    Mat × ℕ :=
  let Mc := fill_row_pairs R g i M c (List.range (M.cols / 2))
  if Mc.1.cols % 2 = 1 then
    let xy := sample_gaussian_pair R (g Mc.2) (g (Mc.2 + 1))
    (((Mc.1.write i (Mc.1.cols - 1) xy.1).write i (Mc.1.cols - 1) xy.2), Mc.2 + 2)
  else Mc

/-- The matrix overload of `sample_gaussian`: fill the matrix row by row
from the uniform source, two normal samples per Box-Muller call. -/
noncomputable def sample_gaussian_mat (R : ℕ) (g : ℕ → ℕ) (M : Mat) (c : ℕ) :
    Mat × ℕ :=
  (List.range M.rows).foldl (fun Mc i => fill_row R g i Mc.1 Mc.2) (M, c)

/-- The fixed rank-deficiency threshold of `gram_schmidt`
(`static const Scalar EPS(1E-4)`). -/
noncomputable def EPS : ℝ := 1e-4

section GramSchmidt

variable {E : Type*} [NormedAddCommGroup E] [InnerProductSpace ℝ E]

/-- One projection subtraction of the inner `gram_schmidt` loop:
`r = col_i.dot(col_j); col_i -= r * col_j`. -/
noncomputable def proj_step (c u : E) : E := c - (inner c u : ℝ) • u

/-- The full inner loop for one column: subtract, in order, the projections
onto every earlier (already processed) column. -/
noncomputable def project_cols (done : List E) (c : E) : E :=
  done.foldl proj_step c

/-- The column loop of `gram_schmidt`, processing the remaining columns left
to right; `done` holds the already processed columns in place.  If the norm
of a projected column falls below `EPS`, that column and every remaining
column are zeroed and the procedure returns immediately; otherwise the
column is divided by its norm. -/
noncomputable def gs_aux (done : List E) : List E → List E
  | [] => done
  | c :: rest =>
      let cp := project_cols done c
      if ‖cp‖ < EPS then done ++ List.replicate (rest.length + 1) (0 : E)
      else gs_aux (done ++ [(‖cp‖)⁻¹ • cp]) rest

/-- The `gram_schmidt` procedure on a list of columns. -/
noncomputable def gram_schmidt_cols (cols : List E) : List E := gs_aux [] cols

/-- A list of columns is orthonormal: pairwise orthogonal, each of norm 1.
This is the invariant of the already processed columns of `gs_aux`. -/
def OrthoCols (l : List E) : Prop :=
  List.Pairwise (fun u v => (inner u v : ℝ) = 0) l ∧ ∀ u ∈ l, ‖u‖ = 1

end GramSchmidt

/-- Column `j` of a matrix, as a Euclidean vector of length `rows`. -/
def colVec (M : Mat) (j : ℕ) : EuclideanSpace ℝ (Fin M.rows) :=
  fun i => M.entry i.1 j

/-- The columns of a matrix, left to right, as Euclidean vectors. -/
def matCols (M : Mat) : List (EuclideanSpace ℝ (Fin M.rows)) :=
  (List.range M.cols).map (colVec M)

/-- The in-place `gram_schmidt` on a matrix: run the column loop on its
columns and store the result back; dimensions are unchanged. -/
noncomputable def gram_schmidt_mat (M : Mat) : Mat :=
  ⟨M.rows, M.cols, fun i j =>
    if h : i < M.rows then (gram_schmidt_cols (matCols M)).getD j 0 ⟨i, h⟩ else 0⟩

/-- The thin SVD factors returned by the external exact solver
(`Eigen::BDCSVD` with ComputeThinU | ComputeThinV). -/
structure SVDFactors where
  matrixU : Mat
  singularValues : Vec
  matrixV : Mat

/-- The result fields of a `RedSVD` engine instance. -/
structure SVDState where
  m_matrixU : Mat
  m_vectorS : Vec
  m_matrixV : Mat

/-- The eigenpair factors returned by the external exact solver
(`Eigen::SelfAdjointEigenSolver`). -/
structure EigFactors where
  eigenvalues : Vec
  eigenvectors : Mat

/-- The result fields of a `RedSymEigen` engine instance. -/
structure EigenState where
  m_eigenvalues : Vec
  m_eigenvectors : Mat

/-- A default-constructed engine: Eigen dynamic matrices and vectors are
empty (zero-sized) before any computation. -/
def initSVDState : SVDState :=
  ⟨⟨0, 0, fun _ _ => 0⟩, ⟨0, fun _ => 0⟩, ⟨0, 0, fun _ _ => 0⟩⟩

/-- A default-constructed `RedSymEigen` engine. -/
def initEigenState : EigenState :=
  ⟨⟨0, fun _ => 0⟩, ⟨0, 0, fun _ _ => 0⟩⟩

/-- The rank clamp performed identically by `RedSVD::compute_svd` and
`RedSymEigen::compute`:
`r = (rank < A.cols()) ? rank : A.cols(); r = (r < A.rows()) ? r : A.rows()`. -/
def clamp_rank (A : Mat) (rank : ℕ) : ℕ :=
  let r := if rank < A.cols then rank else A.cols
  if r < A.rows then r else A.rows

/-- The private `RedSVD::compute_svd(A, rank, &Z, &Y)`: the degenerate-size
check `if (A.cols() == 0 || A.rows() == 0) {}` is an empty statement (a
TODO in the source) and has no effect, so it is omitted; then the rank is
clamped, `O` (`rows x r`) is filled with Gaussian samples, `Y` is the
orthonormalized `A^T * O`, `B = A * Y`, `P` (`B.cols x r`) is filled with
Gaussian samples, `Z` is the orthonormalized `B * P`, and the external SVD
solver is applied to `C = Z^T * B`.  Returns the solver output together
with the out-parameters `Z` and `Y` and the advanced rand counter. -/
noncomputable def compute_svd (solver : Mat → SVDFactors) (A : Mat)
    (rank : ℕ) (g : ℕ → ℕ) (R c : ℕ) : SVDFactors × Mat × Mat × ℕ :=
  let r := clamp_rank A rank
  let Oc := sample_gaussian_mat R g ⟨A.rows, r, fun _ _ => 0⟩ c
  let Y := gram_schmidt_mat (Mat.mul A.transpose Oc.1)
  let B := Mat.mul A Y
  let Pc := sample_gaussian_mat R g ⟨B.cols, r, fun _ _ => 0⟩ Oc.2
  let Z := gram_schmidt_mat (Mat.mul B Pc.1)
  let C := Mat.mul Z.transpose B
  (solver C, Z, Y, Pc.2)

/-- `RedSVD::compute`: run `compute_svd` and populate all three result
fields, `U = Z * U_C`, `S = S_C`, `V = Y * V_C`. -/
noncomputable def RedSVD_compute (solver : Mat → SVDFactors) (A : Mat)
    (rank : ℕ) (g : ℕ → ℕ) (R c : ℕ) (s : SVDState) : SVDState :=
  let out := compute_svd solver A rank g R c
  { m_matrixU := Mat.mul out.2.1 out.1.matrixU
    m_vectorS := out.1.singularValues
    m_matrixV := Mat.mul out.2.2.1 out.1.matrixV }

/-- `RedSVD::compute_V`: run `compute_svd` and populate only `S` and `V`;
the field `m_matrixU` is not assigned. -/
noncomputable def RedSVD_compute_V (solver : Mat → SVDFactors) (A : Mat)
    (rank : ℕ) (g : ℕ → ℕ) (R c : ℕ) (s : SVDState) : SVDState :=
  let out := compute_svd solver A rank g R c
  { m_matrixU := s.m_matrixU
    m_vectorS := out.1.singularValues
    m_matrixV := Mat.mul out.2.2.1 out.1.matrixV }

/-- `RedSVD::compute_U`: run `compute_svd` and populate only `S` and `U`;
the field `m_matrixV` is not assigned. -/
noncomputable def RedSVD_compute_U (solver : Mat → SVDFactors) (A : Mat)
    (rank : ℕ) (g : ℕ → ℕ) (R c : ℕ) (s : SVDState) : SVDState :=
  let out := compute_svd solver A rank g R c
  { m_matrixU := Mat.mul out.2.1 out.1.matrixU
    m_vectorS := out.1.singularValues
    m_matrixV := s.m_matrixV }

/-- Modelled from the spec: `RedSVD::compute_singularValues` is specified to
run the sketching pipeline and populate only `S`.  The source body calls
`this->compute_svd(A, rank)`, but the only `compute_svd` member takes four
arguments, so every instantiation of the source function fails to compile;
this definition follows the evident intent (run `compute_svd` and keep only
the singular values). -/
noncomputable def RedSVD_compute_singularValues (solver : Mat → SVDFactors)
    (A : Mat) (rank : ℕ) (g : ℕ → ℕ) (R c : ℕ) (s : SVDState) : SVDState :=
  let out := compute_svd solver A rank g R c
  { m_matrixU := s.m_matrixU
    m_vectorS := out.1.singularValues
    m_matrixV := s.m_matrixV }

/-- The one-argument constructor `RedSVD(A)`: compute with the default rank
`(A.rows() < A.cols()) ? A.rows() : A.cols()` starting from a
default-constructed engine. -/
noncomputable def RedSVD_new (solver : Mat → SVDFactors) (A : Mat)
    (g : ℕ → ℕ) (R c : ℕ) : SVDState :=
  let r := if A.rows < A.cols then A.rows else A.cols
  RedSVD_compute solver A r g R c initSVDState

/-- `RedSymEigen::compute`: on a zero-sized input return immediately
(leaving the engine state as it is); otherwise clamp the rank, sketch
`Y` as the orthonormalized `A^T * O`, form `B = Y^T * A * Y`, run the
external symmetric eigensolver on `B`, and populate both result fields
(eigenvalues unchanged, eigenvectors lifted by `Y`). -/
noncomputable def RedSymEigen_compute (eigSolver : Mat → EigFactors)
    (A : Mat) (rank : ℕ) (g : ℕ → ℕ) (R c : ℕ) (s : EigenState) : EigenState :=
  if A.cols = 0 ∨ A.rows = 0 then s
  else
    let r := clamp_rank A rank
    let Oc := sample_gaussian_mat R g ⟨A.rows, r, fun _ _ => 0⟩ c
    let Y := gram_schmidt_mat (Mat.mul A.transpose Oc.1)
    let B := Mat.mul (Mat.mul Y.transpose A) Y
    let e := eigSolver B
    { m_eigenvalues := e.eigenvalues
      m_eigenvectors := Mat.mul Y e.eigenvectors }

/-- The one-argument constructor `RedSymEigen(A)`: compute with the default
rank `(A.rows() < A.cols()) ? A.rows() : A.cols()` starting from a
default-constructed engine. -/
noncomputable def RedSymEigen_new (eigSolver : Mat → EigFactors) (A : Mat)
    (g : ℕ → ℕ) (R c : ℕ) : EigenState :=
  let r := if A.rows < A.cols then A.rows else A.cols
  RedSymEigen_compute eigSolver A r g R c initEigenState

/-- Modelled from the spec: the Randomized Range Finder of section 4.3,
which is not a named procedure in the source.  Given a target matrix `M`
(`p x q`) and a clamped rank `r`: draw a `p x r` matrix `O` of Gaussian
samples, form the sketch `M^T * O` (`q x r`), and orthonormalize its
columns in place. -/
noncomputable def rangeFinder_spec (M : Mat) (r : ℕ) (g : ℕ → ℕ)
    (R c : ℕ) : Mat :=
  let Oc := sample_gaussian_mat R g ⟨M.rows, r, fun _ _ => 0⟩ c
  gram_schmidt_mat (Mat.mul M.transpose Oc.1)

/-- An all-zero matrix of the given dimensions (concrete test input). -/
def zeroMat (p q : ℕ) : Mat := ⟨p, q, fun _ _ => 0⟩

/-- An all-ones matrix of the given dimensions (concrete test input). -/
def onesMat (p q : ℕ) : Mat := ⟨p, q, fun _ _ => 1⟩

/-- A concrete uniform source stream that always draws 0. -/
def g0 : ℕ → ℕ := fun _ => 0

/-- A concrete instance of the external SVD solver, used for closed test
inputs: it returns the core matrix itself as both factors. -/
def trivialSolver : Mat → SVDFactors :=
  fun C => ⟨C, ⟨C.rows, fun _ => 0⟩, C⟩

/-- A concrete instance of the external symmetric eigensolver, used for
closed test inputs. -/
def trivialEigSolver : Mat → EigFactors :=
  fun B => ⟨⟨B.rows, fun _ => 0⟩, B⟩

/-- A concrete nonempty engine state standing for results left over from an
earlier computation. -/
def exEigState : EigenState := ⟨⟨1, fun _ => 5⟩, ⟨1, 1, fun _ _ => 5⟩⟩

/-- The result of an earlier `RedSVD::compute` invocation on a 1x1 matrix,
used as the prior engine state of a later partial invocation. -/
noncomputable def prevSVD : SVDState :=
  RedSVD_compute trivialSolver (onesMat 1 1) 1 g0 32767 0 initSVDState

/-- The result of an earlier `RedSymEigen::compute` invocation on a 1x1
matrix, used as the prior engine state of a later invocation. -/
noncomputable def prevEig : EigenState :=
  RedSymEigen_compute trivialEigSolver (onesMat 1 1) 1 g0 32767 0 initEigenState

/-! ### Dimension lemmas -/

@[simp]
theorem Mat.transpose_rows (A : Mat) : A.transpose.rows = A.cols := rfl

@[simp]
theorem Mat.transpose_cols (A : Mat) : A.transpose.cols = A.rows := rfl

@[simp]
theorem Mat.mul_rows (A B : Mat) : (Mat.mul A B).rows = A.rows := rfl

@[simp]
theorem Mat.mul_cols (A B : Mat) : (Mat.mul A B).cols = B.cols := rfl

@[simp]
theorem Mat.write_rows (M : Mat) (i j : ℕ) (v : ℝ) :
    (M.write i j v).rows = M.rows := rfl

@[simp]
theorem Mat.write_cols (M : Mat) (i j : ℕ) (v : ℝ) :
    (M.write i j v).cols = M.cols := rfl

@[simp]
theorem gram_schmidt_mat_rows (M : Mat) : (gram_schmidt_mat M).rows = M.rows := rfl

@[simp]
theorem gram_schmidt_mat_cols (M : Mat) : (gram_schmidt_mat M).cols = M.cols := rfl

theorem fill_row_pairs_dims (R : ℕ) (g : ℕ → ℕ) (i : ℕ) (ts : List ℕ) :
    ∀ (M : Mat) (c : ℕ),
      (fill_row_pairs R g i M c ts).1.rows = M.rows ∧
      (fill_row_pairs R g i M c ts).1.cols = M.cols := by
  induction ts with
  | nil => intro M c; exact ⟨rfl, rfl⟩
  | cons t ts ih =>
      intro M c
      simpa [fill_row_pairs] using ih ((M.write i (2 * t)
        (sample_gaussian_pair R (g c) (g (c + 1))).1).write i (2 * t + 1)
        (sample_gaussian_pair R (g c) (g (c + 1))).2) (c + 2)

theorem fill_row_dims (R : ℕ) (g : ℕ → ℕ) (i : ℕ) (M : Mat) (c : ℕ) :
    (fill_row R g i M c).1.rows = M.rows ∧
    (fill_row R g i M c).1.cols = M.cols := by
  have h := fill_row_pairs_dims R g i (List.range (M.cols / 2)) M c
  unfold fill_row
  dsimp only
  split
  · exact ⟨h.1, h.2⟩
  · exact ⟨h.1, h.2⟩

theorem sample_gaussian_mat_dims_aux (R : ℕ) (g : ℕ → ℕ) (l : List ℕ) :
    ∀ (Mc : Mat × ℕ),
      (l.foldl (fun Mc i => fill_row R g i Mc.1 Mc.2) Mc).1.rows = Mc.1.rows ∧
      (l.foldl (fun Mc i => fill_row R g i Mc.1 Mc.2) Mc).1.cols = Mc.1.cols := by
  induction l with
  | nil => intro Mc; exact ⟨rfl, rfl⟩
  | cons i l ih =>
      intro Mc
      have h1 := fill_row_dims R g i Mc.1 Mc.2
      have h2 := ih (fill_row R g i Mc.1 Mc.2)
      simp only [List.foldl_cons]
      exact ⟨h2.1.trans h1.1, h2.2.trans h1.2⟩

@[simp]
theorem sample_gaussian_mat_rows (R : ℕ) (g : ℕ → ℕ) (M : Mat) (c : ℕ) :
    (sample_gaussian_mat R g M c).1.rows = M.rows :=
  (sample_gaussian_mat_dims_aux R g (List.range M.rows) (M, c)).1

@[simp]
theorem sample_gaussian_mat_cols (R : ℕ) (g : ℕ → ℕ) (M : Mat) (c : ℕ) :
    (sample_gaussian_mat R g M c).1.cols = M.cols :=
  (sample_gaussian_mat_dims_aux R g (List.range M.rows) (M, c)).2

/-! ### Claim theorems: C8, C10, C9, C6, C7 -/

theorem uniform01_mem (R k : ℕ) (h : k ≤ R) :
    0 < uniform01 R k ∧ uniform01 R k < 1 := by
  have hden : (0 : ℝ) < (R : ℝ) + 2 := by positivity
  have hnum : (0 : ℝ) < (k : ℝ) + 1 := by positivity
  unfold uniform01
  constructor
  · exact div_pos hnum hden
  · rw [div_lt_one hden]
    have : (k : ℝ) ≤ (R : ℝ) := Nat.cast_le.mpr h
    linarith

/-- C8: for every possible output of the uniform random source (every raw
draw from 0 through RAND_MAX inclusive), the two uniform values v1 and v2
computed by the Gaussian sampler lie strictly inside the open interval
(0,1) — never exactly 0 or 1 — so the logarithm in the Box-Muller transform
is never applied to 0. -/
theorem uniform_values_in_open_unit_interval (R k1 k2 : ℕ)
    (h1 : k1 ≤ R) (h2 : k2 ≤ R) :
    (0 < uniform01 R k1 ∧ uniform01 R k1 < 1) ∧
    (0 < uniform01 R k2 ∧ uniform01 R k2 < 1) ∧
    uniform01 R k1 ≠ 0 :=
  ⟨uniform01_mem R k1 h1, uniform01_mem R k2 h2, ne_of_gt (uniform01_mem R k1 h1).1⟩

/-- Witness for C8 at RAND_MAX = 32767 and the raw draws 0 and 1. -/
theorem uniform_values_in_open_unit_interval_witness :
    ((0 ≤ 32767 ∧ 1 ≤ 32767) ∧
      (0 < uniform01 32767 0 ∧ uniform01 32767 0 < 1) ∧
      (0 < uniform01 32767 1 ∧ uniform01 32767 1 < 1) ∧
      uniform01 32767 0 ≠ 0) :=
  ⟨⟨by norm_num, by norm_num⟩,
    uniform_values_in_open_unit_interval 32767 0 1 (by norm_num) (by norm_num)⟩

theorem ite_lt_min (a b : ℕ) : (if a < b then a else b) = min a b := by
  rcases Nat.lt_or_ge a b with h | h
  · simp [h, Nat.min_eq_left h.le]
  · simp [Nat.not_lt.mpr h, Nat.min_eq_right h]

/-- C10: the one-argument constructors RedSVD(A) and RedSymEigen(A) invoke
compute with a default rank equal to min(rows(A), cols(A)). -/
theorem one_arg_ctor_uses_min_rank (solver : Mat → SVDFactors)
    (eigSolver : Mat → EigFactors) (A : Mat) (g : ℕ → ℕ) (R c : ℕ) :
    RedSVD_new solver A g R c =
      RedSVD_compute solver A (min A.rows A.cols) g R c initSVDState ∧
    RedSymEigen_new eigSolver A g R c =
      RedSymEigen_compute eigSolver A (min A.rows A.cols) g R c initEigenState := by
  constructor
  · unfold RedSVD_new
    rw [ite_lt_min]
  · unfold RedSymEigen_new
    rw [ite_lt_min]

/-- C9: for every input matrix with zero rows or zero columns and every
rank, RedSVD::compute raises no error: the computation proceeds through the
entire sketching pipeline (the degenerate-size check in compute_svd is an
empty statement), populating all three result fields from the pipeline. -/
theorem svd_compute_degenerate_runs_pipeline (solver : Mat → SVDFactors)
    (A : Mat) (rank : ℕ) (g : ℕ → ℕ) (R c : ℕ) (s : SVDState)
    (h : A.rows = 0 ∨ A.cols = 0) :
    RedSVD_compute solver A rank g R c s =
      { m_matrixU := Mat.mul (compute_svd solver A rank g R c).2.1
          (compute_svd solver A rank g R c).1.matrixU
        m_vectorS := (compute_svd solver A rank g R c).1.singularValues
        m_matrixV := Mat.mul (compute_svd solver A rank g R c).2.2.1
          (compute_svd solver A rank g R c).1.matrixV } := rfl

/-- Witness for C9 on a concrete 0x3 matrix. -/
theorem svd_compute_degenerate_runs_pipeline_witness :
    ((zeroMat 0 3).rows = 0 ∨ (zeroMat 0 3).cols = 0) ∧
    RedSVD_compute trivialSolver (zeroMat 0 3) 2 g0 32767 0 initSVDState =
      { m_matrixU := Mat.mul (compute_svd trivialSolver (zeroMat 0 3) 2 g0 32767 0).2.1
          (compute_svd trivialSolver (zeroMat 0 3) 2 g0 32767 0).1.matrixU
        m_vectorS := (compute_svd trivialSolver (zeroMat 0 3) 2 g0 32767 0).1.singularValues
        m_matrixV := Mat.mul (compute_svd trivialSolver (zeroMat 0 3) 2 g0 32767 0).2.2.1
          (compute_svd trivialSolver (zeroMat 0 3) 2 g0 32767 0).1.matrixV } :=
  ⟨Or.inl rfl, svd_compute_degenerate_runs_pipeline trivialSolver (zeroMat 0 3) 2
    g0 32767 0 initSVDState (Or.inl rfl)⟩

/-- For C6 (code_bug): under an identical stream of random values (same
stream, same counter, same solver), compute_V and compute_U produce, for
the factors they do compute, exactly the values produced by the full
compute; the same holds for compute_singularValues as modelled from its
evident intent (its source body does not compile when instantiated). -/
theorem partial_variants_agree_with_compute (solver : Mat → SVDFactors)
    (A : Mat) (rank : ℕ) (g : ℕ → ℕ) (R c : ℕ) (s sU sV sS : SVDState) :
    (RedSVD_compute_V solver A rank g R c sV).m_vectorS =
      (RedSVD_compute solver A rank g R c s).m_vectorS ∧
    (RedSVD_compute_V solver A rank g R c sV).m_matrixV =
      (RedSVD_compute solver A rank g R c s).m_matrixV ∧
    (RedSVD_compute_U solver A rank g R c sU).m_vectorS =
      (RedSVD_compute solver A rank g R c s).m_vectorS ∧
    (RedSVD_compute_U solver A rank g R c sU).m_matrixU =
      (RedSVD_compute solver A rank g R c s).m_matrixU ∧
    (RedSVD_compute_singularValues solver A rank g R c sS).m_vectorS =
      (RedSVD_compute solver A rank g R c s).m_vectorS :=
  ⟨rfl, rfl, rfl, rfl, rfl⟩

/-- C7: for every matrix A and positive rank request, both engines clamp
the rank to min(rank, rows, cols) before use; the effective rank (the
column count of the sketches Y and Z) never exceeds the smaller matrix
dimension.  The same clamp_rank is the one evaluated by
RedSymEigen::compute. -/
theorem rank_is_clamped (solver : Mat → SVDFactors) (A : Mat) (rank : ℕ)
    (g : ℕ → ℕ) (R c : ℕ) (h : 0 < rank) :
    clamp_rank A rank = min rank (min A.rows A.cols) ∧
    clamp_rank A rank ≤ min A.rows A.cols ∧
    (compute_svd solver A rank g R c).2.2.1.cols = clamp_rank A rank ∧
    (compute_svd solver A rank g R c).2.1.cols = clamp_rank A rank := by
  have hmin : clamp_rank A rank = min rank (min A.rows A.cols) := by
    unfold clamp_rank
    dsimp only
    rw [ite_lt_min, ite_lt_min]
    omega
  refine ⟨hmin, ?_, ?_, ?_⟩
  · rw [hmin]
    omega
  · show (gram_schmidt_mat (Mat.mul (Mat.transpose A)
      (sample_gaussian_mat R g ⟨A.rows, clamp_rank A rank, fun _ _ => 0⟩ c).1)).cols = _
    simp
  · show (gram_schmidt_mat (Mat.mul _ (sample_gaussian_mat R g
      ⟨_, clamp_rank A rank, fun _ _ => 0⟩ _).1)).cols = _
    simp

/-- Witness for C7 on a concrete 2x3 matrix with rank request 1. -/
theorem rank_is_clamped_witness :
    0 < 1 ∧
    (clamp_rank (zeroMat 2 3) 1 = min 1 (min (zeroMat 2 3).rows (zeroMat 2 3).cols) ∧
      clamp_rank (zeroMat 2 3) 1 ≤ min (zeroMat 2 3).rows (zeroMat 2 3).cols ∧
      (compute_svd trivialSolver (zeroMat 2 3) 1 g0 32767 0).2.2.1.cols =
        clamp_rank (zeroMat 2 3) 1 ∧
      (compute_svd trivialSolver (zeroMat 2 3) 1 g0 32767 0).2.1.cols =
        clamp_rank (zeroMat 2 3) 1) :=
  ⟨by norm_num, rank_is_clamped trivialSolver (zeroMat 2 3) 1 g0 32767 0 (by norm_num)⟩

/-! ### Claim theorems: C3, C4, C1 -/

/-- C3 (counterexample): on a zero-sized input, RedSymEigen::compute does
NOT leave the engine with empty results for every prior engine state: an
engine holding the results of a previous compute keeps them (its
eigenvalues vector still has length 1, not 0). -/
theorem symeigen_degenerate_not_emptied :
    ¬ ((RedSymEigen_compute trivialEigSolver (zeroMat 0 0) 1 g0 32767 0
          prevEig).m_eigenvalues.len = 0 ∧
       ((RedSymEigen_compute trivialEigSolver (zeroMat 0 0) 1 g0 32767 0
          prevEig).m_eigenvectors.rows = 0 ∨
        (RedSymEigen_compute trivialEigSolver (zeroMat 0 0) 1 g0 32767 0
          prevEig).m_eigenvectors.cols = 0)) := by
  intro h
  have h1 : (RedSymEigen_compute trivialEigSolver (zeroMat 0 0) 1 g0 32767 0
      prevEig).m_eigenvalues.len = 1 := rfl
  exact Nat.one_ne_zero (h1.symm.trans h.1)

/-- C3 (amended): for every n x n input matrix with zero rows or zero
columns, RedSymEigen::compute returns immediately leaving the engine state
exactly as it was; in particular the results are empty only when the engine
held no prior results (e.g. a default-constructed engine). -/
theorem symeigen_degenerate_returns_immediately (eigSolver : Mat → EigFactors)
    (A : Mat) (rank : ℕ) (g : ℕ → ℕ) (R c : ℕ) (s : EigenState)
    (h : A.cols = 0 ∨ A.rows = 0) :
    RedSymEigen_compute eigSolver A rank g R c s = s := by
  unfold RedSymEigen_compute
  rw [if_pos h]

/-- Witness for the amended C3 on a concrete 0x0 matrix and a
default-constructed engine (where the untouched state is indeed empty). -/
theorem symeigen_degenerate_returns_immediately_witness :
    ((zeroMat 0 0).cols = 0 ∨ (zeroMat 0 0).rows = 0) ∧
    RedSymEigen_compute trivialEigSolver (zeroMat 0 0) 3 g0 32767 0
      initEigenState = initEigenState :=
  ⟨Or.inl rfl, symeigen_degenerate_returns_immediately trivialEigSolver
    (zeroMat 0 0) 3 g0 32767 0 initEigenState (Or.inl rfl)⟩

/-- C4 (counterexample): RedSVD::compute_V does not overwrite all result
fields: after a compute on a 1x1 matrix followed by compute_V on a 2x2
matrix, the field m_matrixU still holds the value produced by the earlier
invocation (and not the value the current invocation would produce: the
dimensions differ). -/
theorem partial_compute_retains_stale_field :
    (RedSVD_compute_V trivialSolver (onesMat 2 2) 2 g0 32767 0
        prevSVD).m_matrixU = prevSVD.m_matrixU ∧
    (RedSVD_compute_V trivialSolver (onesMat 2 2) 2 g0 32767 0
        prevSVD).m_matrixU.rows ≠
      (RedSVD_compute trivialSolver (onesMat 2 2) 2 g0 32767 0
        prevSVD).m_matrixU.rows := by
  refine ⟨rfl, ?_⟩
  intro h
  have h1 : (RedSVD_compute_V trivialSolver (onesMat 2 2) 2 g0 32767 0
      prevSVD).m_matrixU.rows = 1 := rfl
  have h2 : (RedSVD_compute trivialSolver (onesMat 2 2) 2 g0 32767 0
      prevSVD).m_matrixU.rows = 2 := rfl
  omega

/-- C4 (amended): RedSVD::compute overwrites all three result fields with
freshly computed values (its result is independent of the prior state);
each partial variant overwrites only the fields it computes — compute_V
writes S and V but leaves m_matrixU exactly as it was, compute_U writes S
and U but leaves m_matrixV, compute_singularValues writes only S — and
RedSymEigen::compute overwrites both of its result fields except on a
zero-sized input, where it leaves the whole prior state in place. -/
theorem compute_overwrite_semantics (solver : Mat → SVDFactors)
    (eigSolver : Mat → EigFactors) (A : Mat) (rank : ℕ) (g : ℕ → ℕ)
    (R c : ℕ) (s t : SVDState) (e f : EigenState) :
    RedSVD_compute solver A rank g R c s = RedSVD_compute solver A rank g R c t ∧
    (RedSVD_compute_V solver A rank g R c s).m_matrixU = s.m_matrixU ∧
    (RedSVD_compute_V solver A rank g R c s).m_vectorS =
      (RedSVD_compute solver A rank g R c t).m_vectorS ∧
    (RedSVD_compute_V solver A rank g R c s).m_matrixV =
      (RedSVD_compute solver A rank g R c t).m_matrixV ∧
    (RedSVD_compute_U solver A rank g R c s).m_matrixV = s.m_matrixV ∧
    (RedSVD_compute_U solver A rank g R c s).m_vectorS =
      (RedSVD_compute solver A rank g R c t).m_vectorS ∧
    (RedSVD_compute_U solver A rank g R c s).m_matrixU =
      (RedSVD_compute solver A rank g R c t).m_matrixU ∧
    (RedSVD_compute_singularValues solver A rank g R c s).m_matrixU = s.m_matrixU ∧
    (RedSVD_compute_singularValues solver A rank g R c s).m_matrixV = s.m_matrixV ∧
    (RedSVD_compute_singularValues solver A rank g R c s).m_vectorS =
      (RedSVD_compute solver A rank g R c t).m_vectorS ∧
    ((A.cols = 0 ∨ A.rows = 0) → RedSymEigen_compute eigSolver A rank g R c e = e) ∧
    (¬(A.cols = 0 ∨ A.rows = 0) →
      RedSymEigen_compute eigSolver A rank g R c e =
        RedSymEigen_compute eigSolver A rank g R c f) := by
  refine ⟨rfl, rfl, rfl, rfl, rfl, rfl, rfl, rfl, rfl, rfl, ?_, ?_⟩
  · intro h
    unfold RedSymEigen_compute
    rw [if_pos h]
  · intro h
    unfold RedSymEigen_compute
    rw [if_neg h, if_neg h]

/-- Witness for the amended C4: on a concrete nonzero-sized input the
symmetric engine result is independent of the prior state. -/
theorem compute_overwrite_semantics_witness :
    (¬ ((onesMat 1 1).cols = 0 ∨ (onesMat 1 1).rows = 0)) ∧
    RedSymEigen_compute trivialEigSolver (onesMat 1 1) 1 g0 32767 0 exEigState =
      RedSymEigen_compute trivialEigSolver (onesMat 1 1) 1 g0 32767 0 initEigenState :=
  ⟨by decide,
    (compute_overwrite_semantics trivialSolver trivialEigSolver (onesMat 1 1) 1
      g0 32767 0 initSVDState initSVDState exEigState
      initEigenState).2.2.2.2.2.2.2.2.2.2.2 (by decide)⟩

/-- C1 (counterexample): the second sketch Z of compute_svd is NOT obtained
by running the Range Finder (draw Gaussian O, sketch as transpose of the
target times O, orthonormalize) on B = A * Y: on a concrete 2x1 input with
rank 1, Z has 2 rows while the Range Finder applied to B yields a matrix
with B.cols = 1 row, whatever random draws it is given. -/
theorem second_sketch_not_rangeFinder_on_B :
    ¬ ∃ (g2 : ℕ → ℕ) (R2 c2 : ℕ),
        (compute_svd trivialSolver (zeroMat 2 1) 1 g0 32767 0).2.1 =
          rangeFinder_spec
            (Mat.mul (zeroMat 2 1)
              (compute_svd trivialSolver (zeroMat 2 1) 1 g0 32767 0).2.2.1)
            1 g2 R2 c2 := by
  rintro ⟨g2, R2, c2, h⟩
  have hr := congrArg Mat.rows h
  have h1 : (compute_svd trivialSolver (zeroMat 2 1) 1 g0 32767 0).2.1.rows = 2 := rfl
  have h2 : (rangeFinder_spec
      (Mat.mul (zeroMat 2 1)
        (compute_svd trivialSolver (zeroMat 2 1) 1 g0 32767 0).2.2.1)
      1 g2 R2 c2).rows = 1 := rfl
  omega

/-- C1 (amended): in compute_svd, the first sketch Y is exactly the Range
Finder run on A with the clamped rank; the second sketch Z is the Range
Finder run on the TRANSPOSE of B = A * Y (continuing the same random
stream), i.e. Z is the orthonormalization of B times a Gaussian matrix —
the mirror image of the first sketch, not the same procedure applied to B —
and Z is an m x r matrix (m = rows of A, r the clamped rank). -/
theorem second_sketch_is_rangeFinder_on_transpose (solver : Mat → SVDFactors)
    (A : Mat) (rank : ℕ) (g : ℕ → ℕ) (R c : ℕ) :
    (compute_svd solver A rank g R c).2.2.1 =
      rangeFinder_spec A (clamp_rank A rank) g R c ∧
    (compute_svd solver A rank g R c).2.1 =
      rangeFinder_spec
        (Mat.mul A (rangeFinder_spec A (clamp_rank A rank) g R c)).transpose
        (clamp_rank A rank) g R
        (sample_gaussian_mat R g ⟨A.rows, clamp_rank A rank, fun _ _ => 0⟩ c).2 ∧
    (compute_svd solver A rank g R c).2.1.rows = A.rows ∧
    (compute_svd solver A rank g R c).2.1.cols = clamp_rank A rank := by
  refine ⟨rfl, rfl, rfl, ?_⟩
  show (gram_schmidt_mat (Mat.mul _ (sample_gaussian_mat R g
    ⟨_, clamp_rank A rank, fun _ _ => 0⟩ _).1)).cols = _
  simp

/-! ### Sampling lemmas and claim C2 -/

@[simp]
theorem Mat.write_entry (M : Mat) (i j : ℕ) (v : ℝ) (a b : ℕ) :
    (M.write i j v).entry a b = if a = i ∧ b = j then v else M.entry a b := rfl

theorem fill_row_pairs_counter (R : ℕ) (g : ℕ → ℕ) (i : ℕ) (ts : List ℕ) :
    ∀ (M : Mat) (c : ℕ), (fill_row_pairs R g i M c ts).2 = c + 2 * ts.length := by
  induction ts with
  | nil => intro M c; simp [fill_row_pairs]
  | cons t ts ih =>
      intro M c
      rw [fill_row_pairs]
      rw [ih]
      simp only [List.length_cons]
      omega

theorem fill_row_pairs_entry (R : ℕ) (g : ℕ → ℕ) (i : ℕ) (ts : List ℕ)
    (a b : ℕ) :
    ∀ (M : Mat) (c : ℕ), (∀ t ∈ ts, a ≠ i ∨ (b ≠ 2 * t ∧ b ≠ 2 * t + 1)) →
      (fill_row_pairs R g i M c ts).1.entry a b = M.entry a b := by
  induction ts with
  | nil => intro M c _; rfl
  | cons t ts ih =>
      intro M c h
      rw [fill_row_pairs]
      rw [ih _ _ (fun u hu => h u (List.mem_cons_of_mem t hu))]
      have ht := h t (List.mem_cons_self t ts)
      simp only [Mat.write_entry]
      rcases ht with ha | hb
      · rw [if_neg (by tauto), if_neg (by tauto)]
      · rw [if_neg (by tauto), if_neg (by tauto)]

theorem fill_row_counter (R : ℕ) (g : ℕ → ℕ) (i : ℕ) (M : Mat) (c : ℕ) :
    (fill_row R g i M c).2 =
      c + 2 * (M.cols / 2) + (if M.cols % 2 = 1 then 2 else 0) := by
  unfold fill_row
  dsimp only
  have hc : (fill_row_pairs R g i M c (List.range (M.cols / 2))).1.cols = M.cols :=
    (fill_row_pairs_dims R g i (List.range (M.cols / 2)) M c).2
  have hn := fill_row_pairs_counter R g i (List.range (M.cols / 2)) M c
  rw [hc]
  split
  · rw [hn, List.length_range]
  · rw [hn, List.length_range]
    omega

theorem fill_row_entry_other_row (R : ℕ) (g : ℕ → ℕ) (i : ℕ) (M : Mat)
    (c : ℕ) (a b : ℕ) (ha : a ≠ i) :
    (fill_row R g i M c).1.entry a b = M.entry a b := by
  unfold fill_row
  dsimp only
  have hp := fill_row_pairs_entry R g i (List.range (M.cols / 2)) a b M c
    (fun t _ => Or.inl ha)
  split
  · simp only [Mat.write_entry]
    rw [if_neg (by tauto), if_neg (by tauto)]
    exact hp
  · exact hp

theorem fill_row_tail_entry (R : ℕ) (g : ℕ → ℕ) (i : ℕ) (M : Mat) (c : ℕ)
    (b : ℕ) (hb : b = M.cols - 1) (hodd : M.cols % 2 = 1) :
    (fill_row R g i M c).1.entry i b =
      (sample_gaussian_pair R (g (c + 2 * (M.cols / 2)))
        (g (c + 2 * (M.cols / 2) + 1))).2 := by
  subst hb
  unfold fill_row
  dsimp only
  have hc : (fill_row_pairs R g i M c (List.range (M.cols / 2))).1.cols = M.cols :=
    (fill_row_pairs_dims R g i (List.range (M.cols / 2)) M c).2
  have hn := fill_row_pairs_counter R g i (List.range (M.cols / 2)) M c
  rw [hc]
  rw [if_pos hodd]
  rw [hn, List.length_range]
  simp

theorem sample_fold_counter (R : ℕ) (g : ℕ → ℕ) (n : ℕ) (M : Mat) (c : ℕ) :
    ((List.range n).foldl (fun Mc i => fill_row R g i Mc.1 Mc.2) (M, c)).2 =
      c + n * (2 * (M.cols / 2) + (if M.cols % 2 = 1 then 2 else 0)) := by
  induction n with
  | zero => simp
  | succ n ih =>
      rw [List.range_succ, List.foldl_append, List.foldl_cons, List.foldl_nil]
      rw [fill_row_counter]
      rw [(sample_gaussian_mat_dims_aux R g (List.range n) (M, c)).2]
      rw [ih]
      ring

theorem sample_fold_entry_high_row (R : ℕ) (g : ℕ → ℕ) (n : ℕ) (M : Mat)
    (c : ℕ) (a b : ℕ) (ha : n ≤ a) :
    ((List.range n).foldl (fun Mc i => fill_row R g i Mc.1 Mc.2) (M, c)).1.entry a b =
      M.entry a b := by
  induction n with
  | zero => rfl
  | succ n ih =>
      rw [List.range_succ, List.foldl_append, List.foldl_cons, List.foldl_nil]
      rw [fill_row_entry_other_row R g n _ _ a b (by omega)]
      exact ih (by omega)

theorem sample_fold_tail_entry (R : ℕ) (g : ℕ → ℕ) (M : Mat) (c : ℕ)
    (hodd : M.cols % 2 = 1) (n : ℕ) (i : ℕ) (hi : i < n) :
    ((List.range n).foldl (fun Mc i => fill_row R g i Mc.1 Mc.2) (M, c)).1.entry
        i (M.cols - 1) =
      (sample_gaussian_pair R (g (c + i * (2 * (M.cols / 2) + 2) + 2 * (M.cols / 2)))
        (g (c + i * (2 * (M.cols / 2) + 2) + 2 * (M.cols / 2) + 1))).2 := by
  induction n with
  | zero => omega
  | succ n ih =>
      rw [List.range_succ, List.foldl_append, List.foldl_cons, List.foldl_nil]
      rcases Nat.lt_or_ge i n with h | h
      · rw [fill_row_entry_other_row R g n _ _ i _ (by omega)]
        exact ih h
      · have hin : i = n := by omega
        subst hin
        have hcols : ((List.range i).foldl (fun Mc i => fill_row R g i Mc.1 Mc.2)
            (M, c)).1.cols = M.cols :=
          (sample_gaussian_mat_dims_aux R g (List.range i) (M, c)).2
        rw [fill_row_tail_entry R g i _ _ (M.cols - 1) (by rw [hcols])
          (by rw [hcols]; exact hodd)]
        rw [hcols, sample_fold_counter R g i M c, if_pos hodd]

/-- C2 (counterexample): for a matrix whose rows have an odd number of
columns, the value stored in the final column is NOT the first (the
cosine-based sample x) of the extra Box-Muller pair: on a concrete 1x1
matrix with a uniform source that always draws 0 and RAND_MAX = 32767, the
stored value differs from the cosine-based sample of the consumed pair. -/
theorem odd_final_column_not_cosine :
    ¬ ((sample_gaussian_mat 32767 g0 (onesMat 1 1) 0).1.entry 0 0 =
        (sample_gaussian_pair 32767 (g0 0) (g0 1)).1) := by
  intro h
  have he : (sample_gaussian_mat 32767 g0 (onesMat 1 1) 0).1.entry 0 0 =
      (sample_gaussian_pair 32767 (g0 0) (g0 1)).2 := rfl
  rw [he] at h
  have hg : g0 0 = 0 := rfl
  have hg1 : g0 1 = 0 := rfl
  rw [hg, hg1] at h
  unfold sample_gaussian_pair at h
  dsimp only at h
  have hv : uniform01 32767 0 = 1 / 32769 := by
    unfold uniform01
    norm_num
  rw [hv] at h
  have hlog : Real.log (1 / 32769) < 0 :=
    Real.log_neg (by norm_num) (by norm_num)
  have hlen : 0 < Real.sqrt ((-2 : ℝ) * Real.log (1 / 32769)) :=
    Real.sqrt_pos.mpr (by linarith)
  have h2 : Real.sin (2 * Real.pi * (1 / 32769)) =
      Real.cos (2 * Real.pi * (1 / 32769)) :=
    mul_left_cancel₀ (ne_of_gt hlen) h
  have hc : Real.cos (2 * Real.pi * (1 / 32769) + Real.pi / 4) = 0 := by
    rw [Real.cos_add, Real.cos_pi_div_four, Real.sin_pi_div_four, ← h2]
    ring
  rw [Real.cos_eq_zero_iff] at hc
  obtain ⟨n, hn⟩ := hc
  have h3 : Real.pi * ((2 : ℝ) / 32769 + 1 / 4) =
      Real.pi * ((2 * (n : ℝ) + 1) / 2) := by
    linear_combination hn
  have h4 : ((2 : ℝ) / 32769 + 1 / 4) = (2 * (n : ℝ) + 1) / 2 :=
    mul_left_cancel₀ Real.pi_ne_zero h3
  have h5 : (32777 : ℝ) = 65538 * (2 * (n : ℝ) + 1) := by
    linear_combination (131076 : ℝ) * h4
  have h6 : (32777 : ℤ) = 65538 * (2 * n + 1) := by exact_mod_cast h5
  omega

/-- C2 (amended): when the Gaussian sampler fills a matrix whose rows have
an odd number of columns, the final column of each row receives one extra
Box-Muller sampling pair (two further raw draws of the uniform source), and
the value stored in that column is the SECOND of the two generated values
(the sine-based sample y, assigned last through the aliased reference); the
first (the cosine-based sample x) is overwritten and discarded. -/
theorem odd_final_column_keeps_sine_sample (M : Mat) (g : ℕ → ℕ) (R c : ℕ)
    (hodd : M.cols % 2 = 1) (i : ℕ) (hi : i < M.rows) :
    (sample_gaussian_mat R g M c).1.entry i (M.cols - 1) =
      (sample_gaussian_pair R
        (g (c + i * (2 * (M.cols / 2) + 2) + 2 * (M.cols / 2)))
        (g (c + i * (2 * (M.cols / 2) + 2) + 2 * (M.cols / 2) + 1))).2 :=
  sample_fold_tail_entry R g M c hodd M.rows i hi

/-- Witness for the amended C2 on a concrete 1x3 matrix (row 0): the final
column holds the sine-based sample of the second consumed pair. -/
theorem odd_final_column_keeps_sine_sample_witness :
    ((onesMat 1 3).cols % 2 = 1 ∧ 0 < (onesMat 1 3).rows) ∧
    (sample_gaussian_mat 32767 g0 (onesMat 1 3) 0).1.entry 0 ((onesMat 1 3).cols - 1) =
      (sample_gaussian_pair 32767
        (g0 (0 + 0 * (2 * ((onesMat 1 3).cols / 2) + 2) + 2 * ((onesMat 1 3).cols / 2)))
        (g0 (0 + 0 * (2 * ((onesMat 1 3).cols / 2) + 2) + 2 * ((onesMat 1 3).cols / 2) + 1))).2 :=
  ⟨⟨rfl, by decide⟩,
    odd_final_column_keeps_sine_sample (onesMat 1 3) g0 32767 0 rfl 0 (by decide)⟩

/-! ### Gram-Schmidt lemmas -/

theorem EPS_pos : (0 : ℝ) < EPS := by norm_num [EPS]

section GramSchmidtLemmas

variable {E : Type*} [NormedAddCommGroup E] [InnerProductSpace ℝ E]

theorem project_cols_nil (c : E) : project_cols [] c = c := rfl

theorem project_cols_append (l : List E) (u c : E) :
    project_cols (l ++ [u]) c = proj_step (project_cols l c) u := by
  simp [project_cols, List.foldl_append]

theorem project_cols_inner_eq_zero (l : List E) (c : E) :
    OrthoCols l → ∀ w ∈ l, (inner (project_cols l c) w : ℝ) = 0 := by
  induction l using List.reverseRecOn with
  | nil => intro _ w hw; simp at hw
  | append_singleton l u ih =>
      intro h w hw
      obtain ⟨hpair, hnorm⟩ := h
      rw [List.pairwise_append] at hpair
      have hlu : ∀ a ∈ l, (inner a u : ℝ) = 0 := by
        intro a ha
        simpa using hpair.2.2 a ha u (by simp)
      have hu1 : ‖u‖ = 1 := hnorm u (by simp)
      have hol : OrthoCols l :=
        ⟨hpair.1, fun a ha => hnorm a (List.mem_append_left _ ha)⟩
      rw [project_cols_append]
      rcases List.mem_append.mp hw with hwl | hwu
      · rw [proj_step, inner_sub_left, real_inner_smul_left]
        rw [ih hol w hwl]
        have hz : (inner u w : ℝ) = 0 := by
          rw [real_inner_comm]
          exact hlu w hwl
        rw [hz]
        ring
      · have hwu2 : w = u := by simpa using hwu
        subst hwu2
        rw [proj_step, inner_sub_left, real_inner_smul_left]
        have hz : (inner w w : ℝ) = 1 := by
          rw [real_inner_self_eq_norm_mul_norm, hu1]
          norm_num
        rw [hz]
        ring

theorem project_cols_sub_mem_span (l : List E) (c : E) :
    project_cols l c - c ∈ Submodule.span ℝ {x : E | x ∈ l} := by
  induction l using List.reverseRecOn with
  | nil =>
      rw [project_cols_nil]
      simp
  | append_singleton l u ih =>
      rw [project_cols_append, proj_step]
      have h1 : project_cols l c - c ∈ Submodule.span ℝ {x : E | x ∈ l ++ [u]} :=
        Submodule.span_mono (fun x hx => List.mem_append_left _ hx) ih
      have h2 : u ∈ Submodule.span ℝ {x : E | x ∈ l ++ [u]} :=
        Submodule.subset_span (by simp)
      have h3 := Submodule.sub_mem _ h1
        (Submodule.smul_mem _ ((inner (project_cols l c) u : ℝ)) h2)
      rw [sub_right_comm]
      exact h3

theorem project_cols_eq_zero (l : List E) (c : E) (h : OrthoCols l)
    (hc : c ∈ Submodule.span ℝ {x : E | x ∈ l}) : project_cols l c = 0 := by
  have hvmem : project_cols l c ∈ Submodule.span ℝ {x : E | x ∈ l} := by
    have hadd := Submodule.add_mem _ hc (project_cols_sub_mem_span l c)
    simpa using hadd
  have horth : ∀ w ∈ Submodule.span ℝ {x : E | x ∈ l},
      (inner (project_cols l c) w : ℝ) = 0 := by
    intro w hw
    induction hw using Submodule.span_induction with
    | mem x hx => exact project_cols_inner_eq_zero l c h x hx
    | zero => simp
    | add x y hx hy ihx ihy => rw [inner_add_right, ihx, ihy]; ring
    | smul a x hx ihx => rw [real_inner_smul_right, ihx]; ring
  exact inner_self_eq_zero.mp (horth _ hvmem)

theorem gs_aux_length (rest : List E) : ∀ done : List E,
    (gs_aux done rest).length = done.length + rest.length := by
  induction rest with
  | nil => intro done; simp [gs_aux]
  | cons c rest ih =>
      intro done
      rw [gs_aux]
      split
      · simp
      · rw [ih]
        simp
        omega

theorem gs_aux_append_eq (rest : List E) : ∀ done : List E,
    ∃ tl, gs_aux done rest = done ++ tl := by
  induction rest with
  | nil => intro done; exact ⟨[], by simp [gs_aux]⟩
  | cons c rest ih =>
      intro done
      rw [gs_aux]
      by_cases hcol : ‖project_cols done c‖ < EPS
      · rw [if_pos hcol]
        exact ⟨_, rfl⟩
      · rw [if_neg hcol]
        obtain ⟨tl, htl⟩ :=
          ih (done ++ [(‖project_cols done c‖)⁻¹ • project_cols done c])
        exact ⟨[(‖project_cols done c‖)⁻¹ • project_cols done c] ++ tl,
          by rw [htl, List.append_assoc]⟩

theorem getD_replicate_of_lt {α : Type*} (n k : ℕ) (a d : α) (h : k < n) :
    (List.replicate n a).getD k d = a := by
  rw [List.getD_eq_getElem _ _ (by simpa using h)]
  simp

theorem gs_aux_zero_of_dependent (rest : List E) :
    ∀ done : List E, OrthoCols done →
      ∀ t, t < rest.length →
        rest.getD t 0 ∈ Submodule.span ℝ
          ({x : E | x ∈ done} ∪ {x : E | ∃ s, s < t ∧ rest.getD s 0 = x}) →
        ∀ k, t ≤ k → k < rest.length →
          (gs_aux done rest).getD (done.length + k) 0 = 0 := by
  induction rest with
  | nil =>
      intro done _ t ht
      simp at ht
  | cons c rest ih =>
      intro done hortho t ht hmem k hk1 hk2
      rw [gs_aux]
      by_cases hcol : ‖project_cols done c‖ < EPS
      · rw [if_pos hcol]
        rw [List.getD_append_right _ _ _ _ (by omega), Nat.add_sub_cancel_left]
        exact getD_replicate_of_lt _ _ _ _ (by simpa using hk2)
      · rw [if_neg hcol]
        set cp := project_cols done c with hcp
        have hcpn : ‖cp‖ ≠ 0 := by
          intro h0
          apply hcol
          rw [h0]
          exact EPS_pos
        have hcppos : 0 < ‖cp‖ := lt_of_le_of_ne (norm_nonneg _) (Ne.symm hcpn)
        set u : E := (‖cp‖)⁻¹ • cp with hu
        have hunorm : ‖u‖ = 1 := by
          rw [hu, norm_smul, norm_inv, norm_norm, inv_mul_cancel₀ hcpn]
        have huorth : ∀ a ∈ done, (inner a u : ℝ) = 0 := by
          intro a ha
          rw [hu, real_inner_smul_right, real_inner_comm]
          rw [show (inner cp a : ℝ) = 0 from
            project_cols_inner_eq_zero done c hortho a ha]
          ring
        have hortho2 : OrthoCols (done ++ [u]) := by
          constructor
          · rw [List.pairwise_append]
            refine ⟨hortho.1, by simp, fun a ha b hb => ?_⟩
            have hbu : b = u := by simpa using hb
            subst hbu
            exact huorth a ha
          · intro w hw
            rcases List.mem_append.mp hw with h1 | h1
            · exact hortho.2 w h1
            · have hwu : w = u := by simpa using h1
              subst hwu
              exact hunorm
        have hcspan : c ∈ Submodule.span ℝ {x : E | x ∈ done ++ [u]} := by
          have h1 : cp - c ∈ Submodule.span ℝ {x : E | x ∈ done} :=
            project_cols_sub_mem_span done c
          have h2 : cp - c ∈ Submodule.span ℝ {x : E | x ∈ done ++ [u]} :=
            Submodule.span_mono (fun x hx => List.mem_append_left _ hx) h1
          have h3 : cp ∈ Submodule.span ℝ {x : E | x ∈ done ++ [u]} := by
            have hu2 : u ∈ {x : E | x ∈ done ++ [u]} := by simp
            have hs := Submodule.smul_mem
              (Submodule.span ℝ {x : E | x ∈ done ++ [u]}) (‖cp‖)
              (Submodule.subset_span hu2)
            rwa [hu, smul_smul, mul_inv_cancel₀ hcpn, one_smul] at hs
          have h4 := Submodule.sub_mem _ h3 h2
          simpa using h4
        rcases t with _ | t2
        · exfalso
          apply hcol
          have hset : ({x : E | x ∈ done} ∪
              {x : E | ∃ s, s < 0 ∧ (c :: rest).getD s 0 = x}) =
              {x : E | x ∈ done} := by
            ext x
            simp
          rw [hset] at hmem
          have hz := project_cols_eq_zero done c hortho hmem
          rw [← hcp] at hz
          rw [hz, norm_zero]
          exact EPS_pos
        · rcases k with _ | k2
          · omega
          have hmem2 : rest.getD t2 0 ∈ Submodule.span ℝ
              ({x : E | x ∈ done ++ [u]} ∪
               {x : E | ∃ s, s < t2 ∧ rest.getD s 0 = x}) := by
            have hsub : ({x : E | x ∈ done} ∪
                {x : E | ∃ s, s < t2 + 1 ∧ (c :: rest).getD s 0 = x}) ⊆
                (Submodule.span ℝ ({x : E | x ∈ done ++ [u]} ∪
                  {x : E | ∃ s, s < t2 ∧ rest.getD s 0 = x}) : Set E) := by
              intro x hx
              rcases hx with hx | hx
              · exact Submodule.subset_span (Or.inl (List.mem_append_left _ hx))
              · obtain ⟨s, hs, hsx⟩ := hx
                rcases s with _ | s2
                · have hxc : x = c := by
                    simpa using hsx.symm
                  subst hxc
                  exact Submodule.span_mono (fun y hy => Or.inl hy) hcspan
                · exact Submodule.subset_span
                    (Or.inr ⟨s2, by omega, by simpa using hsx⟩)
            have hspan := Submodule.span_le.mpr hsub
            have hget : rest.getD t2 0 = (c :: rest).getD (t2 + 1) 0 := rfl
            rw [hget]
            exact hspan hmem
          have hidx : done.length + (k2 + 1) = (done ++ [u]).length + k2 := by
            simp only [List.length_append, List.length_singleton]
            omega
          rw [hidx]
          exact ih (done ++ [u]) hortho2 t2
            (by simpa using ht) hmem2 k2 (by omega) (by simpa using hk2)

end GramSchmidtLemmas

section GramSchmidtLemmas2

variable {E : Type*} [NormedAddCommGroup E] [InnerProductSpace ℝ E]

theorem norm_normalize_of_not_lt (cp : E) (h : ¬ ‖cp‖ < EPS) :
    ‖(‖cp‖)⁻¹ • cp‖ = 1 := by
  have hne : ‖cp‖ ≠ 0 := by
    intro h0
    apply h
    rw [h0]
    exact EPS_pos
  rw [norm_smul, norm_inv, norm_norm, inv_mul_cancel₀ hne]

theorem gs_aux_characterize (rest : List E) :
    ∀ done : List E,
      ∃ p, p ≤ rest.length ∧
        (∀ t, t < p →
          ¬ ‖project_cols ((gs_aux done rest).take (done.length + t))
              (rest.getD t 0)‖ < EPS ∧
          (gs_aux done rest).getD (done.length + t) 0 =
            (‖project_cols ((gs_aux done rest).take (done.length + t))
                (rest.getD t 0)‖)⁻¹ •
              project_cols ((gs_aux done rest).take (done.length + t))
                (rest.getD t 0)) ∧
        (∀ t, p ≤ t → t < rest.length →
          (gs_aux done rest).getD (done.length + t) 0 = 0) ∧
        (p < rest.length →
          ‖project_cols ((gs_aux done rest).take (done.length + p))
            (rest.getD p 0)‖ < EPS) := by
  induction rest with
  | nil =>
      intro done
      refine ⟨0, Nat.le_refl 0, ?_, ?_, ?_⟩
      · intro t ht; omega
      · intro t _ ht2; simp at ht2
      · intro h; simp at h
  | cons c rest ih =>
      intro done
      by_cases hcol : ‖project_cols done c‖ < EPS
      · have hrPos : gs_aux done (c :: rest) =
            done ++ List.replicate (rest.length + 1) (0 : E) := by
          rw [gs_aux]
          rw [if_pos hcol]
        refine ⟨0, Nat.zero_le _, ?_, ?_, ?_⟩
        · intro t ht; omega
        · intro t _ ht2
          rw [hrPos, List.getD_append_right _ _ _ _ (by omega),
            Nat.add_sub_cancel_left]
          exact getD_replicate_of_lt _ _ _ _ (by simpa using ht2)
        · intro _
          rw [hrPos, Nat.add_zero, List.take_left]
          exact hcol
      · have hr : gs_aux done (c :: rest) =
            gs_aux (done ++ [(‖project_cols done c‖)⁻¹ • project_cols done c])
              rest := by
          rw [gs_aux]
          rw [if_neg hcol]
        obtain ⟨p, hp, ha, hb, hc2⟩ :=
          ih (done ++ [(‖project_cols done c‖)⁻¹ • project_cols done c])
        obtain ⟨tl, htl⟩ := gs_aux_append_eq rest
          (done ++ [(‖project_cols done c‖)⁻¹ • project_cols done c])
        have hidx : ∀ m : ℕ, done.length + (m + 1) =
            (done ++ [(‖project_cols done c‖)⁻¹ • project_cols done c]).length
              + m := by
          intro m
          simp only [List.length_append, List.length_singleton]
          omega
        have htake : (gs_aux (done ++ [(‖project_cols done c‖)⁻¹ •
            project_cols done c]) rest).take done.length = done := by
          rw [htl, List.append_assoc]
          exact List.take_left' rfl
        have hget0 : (gs_aux (done ++ [(‖project_cols done c‖)⁻¹ •
            project_cols done c]) rest).getD done.length 0 =
            (‖project_cols done c‖)⁻¹ • project_cols done c := by
          rw [htl, List.append_assoc,
            List.getD_append_right _ _ _ _ (Nat.le_refl _), Nat.sub_self]
          rfl
        refine ⟨p + 1, by simp only [List.length_cons]; omega, ?_, ?_, ?_⟩
        · intro t htp
          rcases t with _ | t2
          · rw [hr, Nat.add_zero, htake]
            exact ⟨hcol, hget0⟩
          · rw [hr, hidx t2, List.getD_cons_succ]
            exact ha t2 (by omega)
        · intro t ht1 ht2
          rcases t with _ | t2
          · omega
          · rw [hr, hidx t2]
            exact hb t2 (by omega)
              (by simp only [List.length_cons] at ht2; omega)
        · intro hlt
          rw [hr, hidx p, List.getD_cons_succ]
          exact hc2 (by simp only [List.length_cons] at hlt; omega)

end GramSchmidtLemmas2

theorem matCols_length (M : Mat) : (matCols M).length = M.cols := by
  simp [matCols]

theorem matCols_getD (M : Mat) (t : ℕ) (h : t < M.cols) :
    (matCols M).getD t 0 = colVec M t := by
  rw [matCols, List.getD_eq_getElem _ _ (by simpa using h)]
  simp

theorem colVec_gram_schmidt_mat (M : Mat) (j : ℕ) :
    colVec (gram_schmidt_mat M) j = (gram_schmidt_cols (matCols M)).getD j 0 := by
  funext i
  exact dif_pos i.isLt

/-- C5: for every matrix, gram_schmidt processes columns left to right;
there is a cut point p (the first collapse point, or the column count if no
collapse occurs) such that: every column before p was kept and equals its
projected residual divided by its norm (that norm not being below the fixed
threshold EPS = 1e-4) and is therefore correctly normalized (norm 1); every
column from p onward is zeroed and no further column is processed; if p is
an actual collapse point, the projected residual of column p has norm below
the threshold.  The procedure is total (never raises), preserves the
dimensions, and — in particular — a matrix with two identical columns has
all columns from the second occurrence onward zeroed. -/
theorem gram_schmidt_behavior (M : Mat) :
    ((gram_schmidt_mat M).rows = M.rows ∧ (gram_schmidt_mat M).cols = M.cols) ∧
    (∃ p, p ≤ M.cols ∧
      (∀ t, t < p →
        ¬ ‖project_cols ((gram_schmidt_cols (matCols M)).take t)
            (colVec M t)‖ < EPS ∧
        colVec (gram_schmidt_mat M) t =
          (‖project_cols ((gram_schmidt_cols (matCols M)).take t)
              (colVec M t)‖)⁻¹ •
            project_cols ((gram_schmidt_cols (matCols M)).take t) (colVec M t) ∧
        ‖colVec (gram_schmidt_mat M) t‖ = 1) ∧
      (∀ t, p ≤ t → t < M.cols → colVec (gram_schmidt_mat M) t = 0) ∧
      (p < M.cols →
        ‖project_cols ((gram_schmidt_cols (matCols M)).take p)
          (colVec M p)‖ < EPS)) ∧
    (∀ j i, j < i → i < M.cols → colVec M j = colVec M i →
      ∀ k, i ≤ k → k < M.cols → colVec (gram_schmidt_mat M) k = 0) := by
  have hgs : gs_aux ([] : List (EuclideanSpace ℝ (Fin M.rows))) (matCols M) =
      gram_schmidt_cols (matCols M) := rfl
  refine ⟨⟨rfl, rfl⟩, ?_, ?_⟩
  · obtain ⟨p, hp, ha, hb, hc2⟩ := gs_aux_characterize (matCols M) []
    simp only [List.length_nil, Nat.zero_add] at ha hb hc2
    rw [hgs] at ha hb hc2
    rw [matCols_length] at hp
    refine ⟨p, hp, ?_, ?_, ?_⟩
    · intro t htp
      obtain ⟨h1, h2⟩ := ha t htp
      rw [matCols_getD M t (by omega)] at h1 h2
      refine ⟨h1, ?_, ?_⟩
      · rw [colVec_gram_schmidt_mat]
        exact h2
      · rw [colVec_gram_schmidt_mat, h2]
        exact norm_normalize_of_not_lt _ h1
    · intro t ht1 ht2
      rw [colVec_gram_schmidt_mat]
      exact hb t ht1 (by rw [matCols_length]; exact ht2)
    · intro hlt
      have hfin := hc2 (by rw [matCols_length]; exact hlt)
      rwa [matCols_getD M p hlt] at hfin
  · intro j i hji hi hcols k hk1 hk2
    have hmem : (matCols M).getD i 0 ∈ Submodule.span ℝ
        ({x | x ∈ ([] : List (EuclideanSpace ℝ (Fin M.rows)))} ∪
         {x | ∃ s, s < i ∧ (matCols M).getD s 0 = x}) := by
      apply Submodule.subset_span
      right
      exact ⟨j, hji, by
        rw [matCols_getD M j (by omega), matCols_getD M i hi, hcols]⟩
    have hz := gs_aux_zero_of_dependent (matCols M) [] (by
        constructor
        · exact List.Pairwise.nil
        · intro u hu
          simp at hu)
      i (by rw [matCols_length]; exact hi) hmem k hk1
      (by rw [matCols_length]; exact hk2)
    rw [show (([] : List (EuclideanSpace ℝ (Fin M.rows))).length + k) = k
      by simp] at hz
    rw [hgs] at hz
    rw [colVec_gram_schmidt_mat]
    exact hz

/-- Witness for C5 on a concrete 1x2 matrix with two identical columns: the
column after the first is zeroed. -/
theorem gram_schmidt_behavior_witness :
    (0 < 1 ∧ 1 < (onesMat 1 2).cols ∧
      colVec (onesMat 1 2) 0 = colVec (onesMat 1 2) 1) ∧
    colVec (gram_schmidt_mat (onesMat 1 2)) 1 = 0 :=
  ⟨⟨by decide, by decide, rfl⟩,
    (gram_schmidt_behavior (onesMat 1 2)).2.2 0 1 (by decide) (by decide) rfl 1
      (Nat.le_refl 1) (by decide)⟩
